import Mathlib

/-!
Verification of the content gap analyser.

A shallow embedding of the text-processing and scoring core of the
`content_gap_analyser` repository (files `models/data_models.py`,
`analysers/dimension_synthesiser.py`, `analysers/gap_analyser.py`).

Python strings are modelled as `List Char` (`Str`), Python's string
methods (`strip`, `lstrip`, `rstrip`, `split`, `join`, `startswith`,
`lower`, substring containment) as executable functions on `Str`.
The LLM client (`llm/deepseek_client.py`, pure network I/O) is modelled
as an abstract oracle: `complete` as `Except String Str`, `complete_json`
as `Except String OracleResponse`; `.error` models a raised exception.
-/

/-- Python `str` modelled as a list of characters. -/
abbrev Str := List Char

/-- Characters treated as whitespace by Python's `str.strip()` /
`str.isspace` (ASCII fragment). -/
def pyIsSpace (c : Char) : Bool :=
  c = ' ' || c = '\t' || c = '\n' || c = '\r' || c = '\x0b' || c = '\x0c'

/-- Python `s.lstrip()`: drop leading whitespace. -/
def pyLstrip (s : Str) : Str := s.dropWhile pyIsSpace

/-- Python `s.rstrip()`: drop trailing whitespace. -/
def pyRstrip (s : Str) : Str := (s.reverse.dropWhile pyIsSpace).reverse

/-- Python `s.strip()`: drop leading and trailing whitespace. -/
def pyStrip (s : Str) : Str := pyRstrip (pyLstrip s)

/-- Python `s.lstrip('- ')`: drop leading `'-'` and `' '` characters
(the bullet markers of the hierarchy format). -/
def dropMarkers (s : Str) : Str := s.dropWhile (fun c => c = '-' || c = ' ')

/-- Python `s.split('\n')`: split at every newline (no collapsing;
`"".split('\n') == [""]`). -/
def splitOnNl : Str → List Str
  | [] => [[]]
  | c :: cs =>
    if c = '\n' then [] :: splitOnNl cs
    else
      match splitOnNl cs with
      | [] => [[c]]
      | l :: ls => (c :: l) :: ls

/-- Python `'\n'.join(lines)`. -/
def joinNl : List Str → Str
  | [] => []
  | [l] => l
  | l :: ls => l ++ '\n' :: joinNl ls

/-- Python `sep.join(parts)` for a general separator. -/
def joinSep (sep : Str) : List Str → Str
  | [] => []
  | [l] => l
  | l :: ls => l ++ sep ++ joinSep sep ls

/-- Python `s.startswith(p)`. -/
def startswith : Str → Str → Bool
  | [], _ => true
  | _ :: _, [] => false
  | p :: ps, c :: cs => p = c && startswith ps cs

/-- Python `needle in haystack` (substring containment). -/
def containsSub (needle : Str) : Str → Bool
  | [] => startswith needle []
  | c :: cs => startswith needle (c :: cs) || containsSub needle cs

/-- Python `s.lower()` (ASCII fragment). -/
def pyLower (s : Str) : Str := s.map Char.toLower

/-- Fuel-driven worker for `pySplitSep` (structural recursion on fuel so
that concrete instances reduce in the kernel). -/
def splitSepAux (sep : Str) : Nat → Str → Str → List Str
  | 0, l, acc => [acc.reverse ++ l]
  | fuel + 1, l, acc =>
    match l with
    | [] => [acc.reverse]
    | c :: cs =>
      if startswith sep l then
        acc.reverse :: splitSepAux sep fuel (l.drop sep.length) []
      else
        splitSepAux sep fuel cs (c :: acc)

/-- Python `s.split(sep)` for a non-empty separator (used with `" > "`). -/
def pySplitSep (sep s : Str) : List Str := splitSepAux sep s.length s []

/-- Python `lst[-1]` on the (always non-empty) result of `split`. -/
def lastPart (parts : List Str) : Str := parts.getLastD []

/-- The leaf name of a dimension path: Python `path.split(' > ')[-1]`. -/
def leafName (path : Str) : Str := lastPart (pySplitSep [' ', '>', ' '] path)

/-! Section: `models/data_models.py`, `DimensionHierarchy.parse_hierarchy`. -/

/-- One entry of `DimensionHierarchy.structured`: the dict
`{'name': …, 'level': …, 'path': …}` built by `parse_hierarchy`. -/
structure HNode where
  name : Str
  level : Nat
  path : Str
deriving Repr, DecidableEq

/-- Embeds `DimensionHierarchy._build_path(existing, name, level)`: level 0 is the
root (path is the bare name); otherwise the path extends the path of the
last previously parsed node whose level is `level - 1`, falling back to
the bare name when no such node exists. -/
def build_path (existing : List HNode) (name : Str) (level : Nat) : Str :=
  if level = 0 then name
  else
    match existing.reverse.find? (fun item => item.level = level - 1) with
    | some parent => parent.path ++ [' ', '>', ' '] ++ name
    | none => name

/-- The node built from one non-blank line of the hierarchy text
(`indent = len(line) - len(line.lstrip())`, `level = indent // 2`,
`name = line.strip().lstrip('- ')`). -/
def mkNode (result : List HNode) (line : Str) : HNode :=
  let indent := line.length - (pyLstrip line).length
  let level := indent / 2
  let name := dropMarkers (pyStrip line)
  ⟨name, level, build_path result name level⟩

/-- The `for line in lines` loop of `parse_hierarchy`: non-blank lines
append a node built against the nodes accumulated so far. -/
def parseLoop : List HNode → List Str → List HNode
  | result, [] => result
  | result, line :: rest =>
    if pyStrip line ≠ [] then parseLoop (result ++ [mkNode result line]) rest
    else parseLoop result rest

/-- Embeds `DimensionHierarchy.parse_hierarchy`: strip the raw text, split into
lines, and turn each non-blank line into a `HNode`. -/
def parse_hierarchy (hierarchy_text : Str) : List HNode :=
  parseLoop [] (splitOnNl (pyStrip hierarchy_text))

/-! Section: `models/data_models.py`, remaining dataclasses. -/

/-- Embeds `DimensionHierarchy` (the `structured` field holds the parsed nodes;
an empty list models Python's initially-empty default). -/
structure DimensionHierarchy where
  key_word : Str
  hierarchy_text : Str
  structured : List HNode := []
deriving Repr, DecidableEq

/-- Embeds `DimensionScore`: score for a single dimension. -/
structure DimensionScore where
  dimension_path : Str
  score : Int
  reasoning : Str
  child_coverage : Option Str := none
deriving Repr, DecidableEq

/-- Embeds `GapAnalysisResult` (the `analysis_id` / `created_at` fields — a random
UUID and the wall clock — carry no analysed content and are elided). -/
structure GapAnalysisResult where
  key_word : Str
  target_url : Str
  dimension_scores : List DimensionScore
  overall_score : ℚ
  strengths : List Str
  weaknesses : List Str
  recommendations : List Str
deriving Repr, DecidableEq

/-- Embeds `KeywordData.raw_dimensions`: declared `List[str]`, but the synthesiser
also defensively handles a dict (`{main_dim: [sub_dims]}`, modelled as an
association list in insertion order). -/
inductive RawDims where
  | list (dims : List Str)
  | dict (entries : List (Str × List Str))
deriving Repr, DecidableEq

/-- Embeds `KeywordData` (the `aio_html` field is not consulted by the
synthesiser's fallback path and is elided). -/
structure KeywordData where
  keyword : Str
  raw_dimensions : RawDims := .list []
deriving Repr, DecidableEq

/-! Section: `analysers/gap_analyser.py`, `GapAnalyser`.

The JSON object returned by `llm.complete_json` is modelled by
`OracleResponse` (`response.get('score', 0)` etc. become `Option` reads);
a raised exception is `Except.error msg`. -/

/-- The JSON dict the scoring oracle returns: optional `score`,
`reasoning`, `child_coverage` keys. -/
structure OracleResponse where
  score : Option Int := none
  reasoning : Option Str := none
  child_coverage : Option Str := none
deriving Repr, DecidableEq

/-- The five legal scores of the scoring rubric. -/
def validScores : List Int := [0, 25, 50, 75, 100]

/-- Embeds `GapAnalyser._analyze_dimension_coverage`: read `score` (default 0),
`reasoning` (default `'No reasoning provided'`) and `child_coverage`
(default `None`) from the oracle's JSON, coerce a score outside
`{0,25,50,75,100}` to 0; a raised exception yields score 0 with an
`'Analysis failed: …'` reasoning. The prompt built from the page content
only feeds the oracle and does not influence the returned record. -/
def analyze_dimension_coverage (oracleResult : Except Str OracleResponse)
    (dim_path : Str) : DimensionScore :=
  match oracleResult with
  | .ok response =>
    let score := response.score.getD 0
    let reasoning := response.reasoning.getD ("No reasoning provided").toList
    let child_coverage := response.child_coverage
    let score := if score ∈ validScores then score else 0
    ⟨dim_path, score, reasoning, child_coverage⟩
  | .error e =>
    ⟨dim_path, 0, ("Analysis failed: ").toList ++ e, none⟩

/-- Embeds `GapAnalyser._get_dimensions_to_analyze`: parse the hierarchy when
`structured` is empty, then keep the nodes with `0 < level <= 2` (the
`children` annotation attached in Python only feeds the prompt text and
is elided). -/
def get_dimensions_to_analyze (hierarchy : DimensionHierarchy) : List HNode :=
  let structured :=
    if hierarchy.structured = [] then parse_hierarchy hierarchy.hierarchy_text
    else hierarchy.structured
  structured.filter (fun item => 0 < item.level && item.level ≤ 2)

/-- Round-half-to-even on ℚ (the semantics of Python's builtin `round`
on an exactly represented value). -/
def roundHalfEven (q : ℚ) : ℤ :=
  let f := ⌊q⌋
  let r := q - f
  if r < 1 / 2 then f
  else if 1 / 2 < r then f + 1
  else if f % 2 = 0 then f else f + 1

/-- Python `round(x, 1)`: round to one decimal place. -/
def round1 (q : ℚ) : ℚ := (roundHalfEven (10 * q) : ℚ) / 10

/-- Embeds `GapAnalyser._calculate_overall_score`: 0.0 on an empty list, else the
mean of the scores rounded to one decimal place. -/
def calculate_overall_score (dimension_scores : List DimensionScore) : ℚ :=
  if dimension_scores = [] then 0
  else
    let total_score : Int := (dimension_scores.map (·.score)).sum
    round1 ((total_score : ℚ) / (dimension_scores.length : ℚ))

/-- Embeds `GapAnalyser._identify_strengths_weaknesses`. -/
def identify_strengths_weaknesses (dimension_scores : List DimensionScore) :
    List Str × List Str :=
  let strengths := dimension_scores.filterMap (fun ds =>
    if ds.score ≥ 75 then
      some (("Strong coverage of ").toList ++ leafName ds.dimension_path)
    else none)
  let weaknesses := dimension_scores.filterMap (fun ds =>
    if ds.score ≤ 25 then
      some (("Weak/missing coverage of ").toList ++ leafName ds.dimension_path)
    else none)
  let strengths :=
    if strengths = [] then
      if dimension_scores.any (fun ds => ds.score ≥ 50) then
        [("Some topics covered at a basic level").toList]
      else []
    else strengths
  let weaknesses :=
    if weaknesses = [] then
      if dimension_scores.any (fun ds => ds.score < 50) then
        [("Several topics need more depth").toList]
      else []
    else weaknesses
  (strengths, weaknesses)

/-- Embeds `GapAnalyser._generate_recommendations`: group the scores by level
(0 / 25 / 50), emit up to one recommendation per priority, a generic one
when none fired, and truncate to 5. -/
def generate_recommendations (dimension_scores : List DimensionScore) :
    List Str :=
  let missing := dimension_scores.filter (fun ds => ds.score = 0)
  let poor := dimension_scores.filter (fun ds => ds.score = 25)
  let average := dimension_scores.filter (fun ds => ds.score = 50)
  let recommendations : List Str := []
  let recommendations :=
    if missing ≠ [] then
      recommendations ++
        [("Add sections covering: ").toList ++
          joinSep [',', ' '] ((missing.take 3).map (fun ds => leafName ds.dimension_path))]
    else recommendations
  let recommendations :=
    if poor ≠ [] then
      recommendations ++
        [("Expand content on: ").toList ++
          joinSep [',', ' '] ((poor.take 3).map (fun ds => leafName ds.dimension_path))]
    else recommendations
  let recommendations :=
    if average ≠ [] ∧ recommendations.length < 3 then
      recommendations ++
        [("Add more detail to: ").toList ++
          joinSep [',', ' '] ((average.take 2).map (fun ds => leafName ds.dimension_path))]
    else recommendations
  let recommendations :=
    if recommendations = [] then
      [("Content covers most topics well - consider adding more examples and case studies").toList]
    else recommendations
  recommendations.take 5

/-- Embeds `GapAnalyser.analyze`: score every dimension of level 1–2 through the
oracle (one `complete_json` outcome per dimension, keyed by its path),
then aggregate. `target_url` stands for `content.url`. -/
def analyze (oracle : Str → Except Str OracleResponse)
    (target_url : Str) (hierarchy : DimensionHierarchy) (key_word : Str) :
    GapAnalysisResult :=
  let dims := get_dimensions_to_analyze hierarchy
  let dimension_scores :=
    dims.map (fun d => analyze_dimension_coverage (oracle d.path) d.path)
  let overall_score := calculate_overall_score dimension_scores
  let sw := identify_strengths_weaknesses dimension_scores
  let recommendations := generate_recommendations dimension_scores
  { key_word := key_word
    target_url := target_url
    dimension_scores := dimension_scores
    overall_score := overall_score
    strengths := sw.1
    weaknesses := sw.2
    recommendations := recommendations }

/-! Section: `analysers/dimension_synthesiser.py`, `DimensionSynthesiser`.

Here `llm.complete` is modelled as `Except Str (Option Str)`: `.error` is a
raised exception, `.ok none` a `None` response body, `.ok (some s)` a
string response. -/

/-- The `for line in lines` scan of `_extract_hierarchy_from_response`,
with the `in_hierarchy` flag threaded explicitly; returning `[]` models
`break`. A capture-start line contributes the bare `key_word`; inside
capture, a non-blank line starting with `' '` or `'-'` is kept (rstripped)
when its stripped form starts with `'-'`, a blank line is skipped, and any
other line ends the scan. -/
def extractLoop (key_word : Str) : List Str → Bool → List Str
  | [], _ => []
  | line :: rest, in_h =>
    if pyStrip line == key_word ||
        (!in_h && containsSub (pyLower key_word) (pyLower line) &&
          startswith key_word (pyStrip line)) then
      key_word :: extractLoop key_word rest true
    else if in_h then
      if !(pyStrip line).isEmpty &&
          (startswith [' '] line || startswith ['-'] line) then
        let clean_line := pyRstrip line
        (if startswith ['-'] (pyStrip clean_line) then [clean_line] else []) ++
          extractLoop key_word rest true
      else if (pyStrip line).isEmpty then extractLoop key_word rest true
      else []
    else extractLoop key_word rest false

/-- Embeds `DimensionSynthesiser._extract_hierarchy_from_response`: `None` or an
empty response yields `""`; otherwise scan the stripped response's lines
and join the captured hierarchy lines with newlines. -/
def extract_hierarchy_from_response (response : Option Str) (key_word : Str) :
    Str :=
  match response with
  | none => []
  | some r =>
    if r = [] then []
    else joinNl (extractLoop key_word (splitOnNl (pyStrip r)) false)

/-- The dimension lines (`'    -- '` followed by the dimension) the fallback
emits for one keyword's raw dimensions (dict keys or list entries, first 3
of either). -/
def fallbackDimLines (rd : RawDims) : List Str :=
  match rd with
  | .dict entries =>
    ((entries.map Prod.fst).take 3).map (fun d => ("    -- ").toList ++ d)
  | .list dims =>
    (dims.take 3).map (fun d => ("    -- ").toList ++ d)

/-- Embeds `DimensionSynthesiser._create_fallback_hierarchy`: the key word
as root, one `'  - '`-prefixed line per keyword, up to three
`'    -- '`-prefixed dimension lines each. -/
def create_fallback_hierarchy (key_word : Str)
    (keywords_data : List KeywordData) : Str :=
  joinNl ([key_word] ++ keywords_data.flatMap (fun kw =>
    (("  - ").toList ++ kw.keyword) :: fallbackDimLines kw.raw_dimensions))

/-- Embeds `DimensionSynthesiser.synthesize`: try the oracle and extract the
hierarchy from its response; on a raised exception fall back to the
deterministic hierarchy; in either case parse and return. -/
def synthesize (oracle : Except Str (Option Str)) (key_word : Str)
    (keywords_data : List KeywordData) : DimensionHierarchy :=
  let hierarchy_text :=
    match oracle with
    | .ok full_response => extract_hierarchy_from_response full_response key_word
    | .error _ => create_fallback_hierarchy key_word keywords_data
  { key_word := key_word
    hierarchy_text := hierarchy_text
    structured := parse_hierarchy hierarchy_text }

/-! Section: theorems for the claims, with their supporting lemmas. -/

/-- C6. Scenario A concrete parse: the hierarchy text
`"Topic\n  - A\n    -- A1\n  - B"` parses to exactly the four nodes
(Topic, 0, Topic), (A, 1, Topic > A), (A1, 2, Topic > A > A1),
(B, 1, Topic > B), in that order. -/
theorem scenario_a_concrete_parse :
    parse_hierarchy ("Topic\n  - A\n    -- A1\n  - B").toList =
      [⟨("Topic").toList, 0, ("Topic").toList⟩,
       ⟨("A").toList, 1, ("Topic > A").toList⟩,
       ⟨("A1").toList, 2, ("Topic > A > A1").toList⟩,
       ⟨("B").toList, 1, ("Topic > B").toList⟩] := by decide

/-- C1. Score domain invariant: every `DimensionScore` the gap scorer
produces — oracle success, out-of-domain or missing score, or raised
exception alike — carries a score in `{0, 25, 50, 75, 100}`, and an
oracle-returned value outside that set (a missing value reads as its
default 0) is coerced to 0, never propagated raw. -/
theorem score_domain_invariant (oracleResult : Except Str OracleResponse)
    (dim_path : Str) :
    (analyze_dimension_coverage oracleResult dim_path).score ∈ validScores ∧
    (∀ response : OracleResponse, oracleResult = .ok response →
      response.score.getD 0 ∉ validScores →
      (analyze_dimension_coverage oracleResult dim_path).score = 0) := by
  constructor
  · cases oracleResult with
    | ok response =>
      simp only [analyze_dimension_coverage]
      split
      · assumption
      · simp [validScores]
    | error e => simp [analyze_dimension_coverage, validScores]
  · rintro response rfl hbad
    simp only [analyze_dimension_coverage]
    split
    · exact absurd (by assumption) hbad
    · rfl

/-- Witness for C1: an oracle returning the out-of-domain score 37 is
coerced to 0. -/
theorem score_domain_invariant_witness :
    (analyze_dimension_coverage (.ok ⟨some 37, none, none⟩)
      ("p").toList).score = 0 :=
  (score_domain_invariant (.ok ⟨some 37, none, none⟩) ("p").toList).2
    ⟨some 37, none, none⟩ rfl (by decide)

theorem roundHalfEven_nonneg {q : ℚ} (h : 0 ≤ q) : 0 ≤ roundHalfEven q := by
  have hf : (0 : ℤ) ≤ ⌊q⌋ := Int.floor_nonneg.mpr h
  simp only [roundHalfEven]
  split_ifs <;> omega

theorem roundHalfEven_le_of_le {q : ℚ} {n : ℤ} (h : q ≤ (n : ℚ)) :
    roundHalfEven q ≤ n := by
  have hf : ⌊q⌋ ≤ n := by
    have h1 := Int.floor_le_floor h
    simpa using h1
  have hstep : ¬ (q - (⌊q⌋ : ℚ) < 1 / 2) → ⌊q⌋ + 1 ≤ n := by
    intro h1
    have h2 : (⌊q⌋ : ℚ) + 1 / 2 ≤ q := by
      push_neg at h1
      linarith
    have h3 : (⌊q⌋ : ℚ) < (n : ℚ) := by linarith
    have h4 : ⌊q⌋ < n := by exact_mod_cast h3
    omega
  simp only [roundHalfEven]
  split_ifs with h1 h2 h3
  · exact hf
  · exact hstep h1
  · exact hf
  · exact hstep h1

theorem round1_nonneg {q : ℚ} (h : 0 ≤ q) : 0 ≤ round1 q := by
  have h1 : (0 : ℤ) ≤ roundHalfEven (10 * q) := roundHalfEven_nonneg (by linarith)
  have h2 : (0 : ℚ) ≤ (roundHalfEven (10 * q) : ℚ) := by exact_mod_cast h1
  simp only [round1]
  positivity

theorem round1_le_100 {q : ℚ} (h : q ≤ 100) : round1 q ≤ 100 := by
  have h1 : 10 * q ≤ ((1000 : ℤ) : ℚ) := by push_cast; linarith
  have h2 : roundHalfEven (10 * q) ≤ 1000 := roundHalfEven_le_of_le h1
  have h3 : (roundHalfEven (10 * q) : ℚ) ≤ 1000 := by exact_mod_cast h2
  simp only [round1]
  rw [div_le_iff₀ (by norm_num : (0 : ℚ) < 10)]
  linarith

theorem scores_sum_nonneg (l : List DimensionScore)
    (h : ∀ ds ∈ l, (0 : ℤ) ≤ ds.score) : 0 ≤ (l.map (·.score)).sum := by
  induction l with
  | nil => simp
  | cons a t ih =>
    have ha := h a (by simp)
    have ht := ih (fun ds hds => h ds (by simp [hds]))
    simp only [List.map_cons, List.sum_cons]
    linarith

theorem scores_sum_le (l : List DimensionScore)
    (h : ∀ ds ∈ l, ds.score ≤ 100) :
    (l.map (·.score)).sum ≤ 100 * (l.length : ℤ) := by
  induction l with
  | nil => simp
  | cons a t ih =>
    have ha := h a (by simp)
    have ht := ih (fun ds hds => h ds (by simp [hds]))
    simp only [List.map_cons, List.sum_cons, List.length_cons]
    push_cast
    linarith

theorem validScores_bounds {s : ℤ} (h : s ∈ validScores) : 0 ≤ s ∧ s ≤ 100 := by
  simp only [validScores, List.mem_cons, List.mem_singleton, List.not_mem_nil] at h
  rcases h with rfl | rfl | rfl | rfl | h
  · omega
  · omega
  · omega
  · omega
  · rcases h with rfl | h
    · omega
    · simp at h

/-- C3. Overall score aggregation: for every sequence of produced
`DimensionScore`s (scores in the rubric domain), `overall_score` is 0 on
the empty sequence, equals the arithmetic mean of the scores rounded to
one decimal place otherwise, and always lies between 0 and 100. -/
theorem overall_score_aggregation (l : List DimensionScore)
    (h : ∀ ds ∈ l, ds.score ∈ validScores) :
    (l = [] → calculate_overall_score l = 0) ∧
    (l ≠ [] →
      calculate_overall_score l =
        round1 ((((l.map (·.score)).sum : ℤ) : ℚ) / (l.length : ℚ))) ∧
    0 ≤ calculate_overall_score l ∧ calculate_overall_score l ≤ 100 := by
  have hlow : ∀ ds ∈ l, (0 : ℤ) ≤ ds.score :=
    fun ds hds => (validScores_bounds (h ds hds)).1
  have hhigh : ∀ ds ∈ l, ds.score ≤ 100 :=
    fun ds hds => (validScores_bounds (h ds hds)).2
  refine ⟨fun hl => by simp [calculate_overall_score, hl],
          fun hl => by simp [calculate_overall_score, hl], ?_⟩
  by_cases hl : l = []
  · simp [calculate_overall_score, hl]
  · have hn : 0 < (l.length : ℚ) := by
      have : 0 < l.length := List.length_pos.mpr hl
      exact_mod_cast this
    have hs0 : (0 : ℚ) ≤ (((l.map (·.score)).sum : ℤ) : ℚ) := by
      exact_mod_cast scores_sum_nonneg l hlow
    have hs1 : (((l.map (·.score)).sum : ℤ) : ℚ) ≤ 100 * (l.length : ℚ) := by
      exact_mod_cast scores_sum_le l hhigh
    have hmean0 : 0 ≤ (((l.map (·.score)).sum : ℤ) : ℚ) / (l.length : ℚ) :=
      div_nonneg hs0 (le_of_lt hn)
    have hmean1 : (((l.map (·.score)).sum : ℤ) : ℚ) / (l.length : ℚ) ≤ 100 := by
      rw [div_le_iff₀ hn]
      linarith
    have hcal : calculate_overall_score l =
        round1 ((((l.map (·.score)).sum : ℤ) : ℚ) / (l.length : ℚ)) := by
      simp [calculate_overall_score, hl]
    rw [hcal]
    exact ⟨round1_nonneg hmean0, round1_le_100 hmean1⟩

/-- Witness for C3: a concrete two-score sequence has its overall score
equal to the rounded mean and within bounds. -/
theorem overall_score_aggregation_witness :
    (calculate_overall_score
        [⟨("a").toList, 75, [], none⟩, ⟨("b").toList, 50, [], none⟩] =
      round1 ((((([⟨("a").toList, 75, [], none⟩,
          ⟨("b").toList, 50, [], none⟩] : List DimensionScore).map
            (·.score)).sum : ℤ) : ℚ) / 2)) ∧
    0 ≤ calculate_overall_score
        [⟨("a").toList, 75, [], none⟩, ⟨("b").toList, 50, [], none⟩] ∧
    calculate_overall_score
        [⟨("a").toList, 75, [], none⟩, ⟨("b").toList, 50, [], none⟩] ≤ 100 :=
  ⟨(overall_score_aggregation _ (by decide)).2.1 (by simp),
   (overall_score_aggregation
      [⟨("a").toList, 75, [], none⟩, ⟨("b").toList, 50, [], none⟩]
      (by decide)).2.2⟩

/-- Formalisation of the spec's description of the recommendation
procedure (claim C9), stated independently of `generate_recommendations`:
a priority-1 entry when any node scored exactly 0, then a priority-2
entry when any scored exactly 25, then — only when fewer than 3
recommendations so far — a priority-3 entry when any scored exactly 50,
then a generic entry when the list would otherwise be empty, capped
at 5. -/
def recommendations_spec (dimension_scores : List DimensionScore) : List Str :=
  let missing := dimension_scores.filter (fun ds => ds.score = 0)
  let poor := dimension_scores.filter (fun ds => ds.score = 25)
  let average := dimension_scores.filter (fun ds => ds.score = 50)
  let tier1 : List Str :=
    if missing ≠ [] then
      [("Add sections covering: ").toList ++
        joinSep [',', ' ']
          ((missing.take 3).map (fun ds => leafName ds.dimension_path))]
    else []
  let tier2 : List Str :=
    if poor ≠ [] then
      [("Expand content on: ").toList ++
        joinSep [',', ' ']
          ((poor.take 3).map (fun ds => leafName ds.dimension_path))]
    else []
  let tier3 : List Str :=
    if average ≠ [] ∧ (tier1 ++ tier2).length < 3 then
      [("Add more detail to: ").toList ++
        joinSep [',', ' ']
          ((average.take 2).map (fun ds => leafName ds.dimension_path))]
    else []
  let tiers := tier1 ++ tier2 ++ tier3
  (if tiers = [] then
    [("Content covers most topics well - consider adding more examples and case studies").toList]
  else tiers).take 5

/-- C9. Recommendation generation: for every score sequence the produced
recommendations contain at most 5 entries and coincide with the
priority-ordered construction the spec describes
(`recommendations_spec`). -/
theorem recommendation_generation (dimension_scores : List DimensionScore) :
    generate_recommendations dimension_scores =
      recommendations_spec dimension_scores ∧
    (generate_recommendations dimension_scores).length ≤ 5 := by
  constructor
  · simp only [generate_recommendations, recommendations_spec]
    by_cases h1 : dimension_scores.filter (fun ds => ds.score = 0) ≠ [] <;>
    by_cases h2 : dimension_scores.filter (fun ds => ds.score = 25) ≠ [] <;>
    by_cases h3 : dimension_scores.filter (fun ds => ds.score = 50) ≠ [] <;>
      simp [h1, h2, h3]
  · simp only [generate_recommendations]
    apply List.length_take_le

/-- The path-consistency invariant of a parsed node list: every node's
path is the one `build_path` yields against the nodes preceding it. -/
def PathsOk (nodes : List HNode) : Prop :=
  ∀ i (h : i < nodes.length),
    (nodes.get ⟨i, h⟩).path =
      build_path (nodes.take i) (nodes.get ⟨i, h⟩).name (nodes.get ⟨i, h⟩).level

theorem pathsOk_nil : PathsOk [] := by
  intro i h
  simp at h

theorem pathsOk_concat {acc : List HNode} (hacc : PathsOk acc) (line : Str) :
    PathsOk (acc ++ [mkNode acc line]) := by
  intro i h
  rcases Nat.lt_or_ge i acc.length with hi | hi
  · simp only [List.get_eq_getElem]
    rw [List.getElem_append_left hi,
      List.take_append_of_le_length (le_of_lt hi)]
    simpa only [List.get_eq_getElem] using hacc i hi
  · have hieq : i = acc.length := by
      simp only [List.length_append, List.length_singleton] at h
      omega
    subst hieq
    simp only [List.get_eq_getElem]
    rw [List.getElem_concat_length acc _ _ rfl, List.take_left]
    rfl

theorem parseLoop_pathsOk (lines : List Str) (acc : List HNode)
    (hacc : PathsOk acc) : PathsOk (parseLoop acc lines) := by
  induction lines generalizing acc with
  | nil => simpa [parseLoop] using hacc
  | cons line rest ih =>
    rw [parseLoop]
    split
    · exact ih _ (pathsOk_concat hacc line)
    · exact ih _ hacc

/-- C5. Path invariant: in every parsed node list, a node that is neither
a root (level 0) nor an orphan has `path = parent.path ++ " > " ++ name`,
where the parent is the nearest preceding node (in traversal order) whose
level is one less; an orphan (no such preceding node) has `path = name`. -/
theorem path_invariant (text : Str) (i : Nat)
    (hi : i < (parse_hierarchy text).length)
    (hlevel : ((parse_hierarchy text).get ⟨i, hi⟩).level ≠ 0) :
    (∀ parent : HNode,
      ((parse_hierarchy text).take i).reverse.find?
          (fun m => m.level = ((parse_hierarchy text).get ⟨i, hi⟩).level - 1) =
        some parent →
      ((parse_hierarchy text).get ⟨i, hi⟩).path =
        parent.path ++ [' ', '>', ' '] ++
          ((parse_hierarchy text).get ⟨i, hi⟩).name) ∧
    (((parse_hierarchy text).take i).reverse.find?
        (fun m => m.level = ((parse_hierarchy text).get ⟨i, hi⟩).level - 1) =
      none →
      ((parse_hierarchy text).get ⟨i, hi⟩).path =
        ((parse_hierarchy text).get ⟨i, hi⟩).name) := by
  have hok : PathsOk (parse_hierarchy text) :=
    parseLoop_pathsOk _ [] pathsOk_nil
  have hpath := hok i hi
  unfold build_path at hpath
  rw [if_neg hlevel] at hpath
  constructor
  · intro parent hp
    rw [hp] at hpath
    exact hpath
  · intro hp
    rw [hp] at hpath
    exact hpath

/-- Witness for C5: in the Scenario A parse, the node `A1` (index 2,
level 2) extends the path of its parent `A`. -/
theorem path_invariant_witness :
    ((parse_hierarchy ("Topic\n  - A\n    -- A1\n  - B").toList).get
        ⟨2, by decide⟩).path =
      ("Topic > A").toList ++ [' ', '>', ' '] ++ ("A1").toList :=
  (path_invariant ("Topic\n  - A\n    -- A1\n  - B").toList 2 (by decide)
      (by decide)).1 ⟨("A").toList, 1, ("Topic > A").toList⟩ (by decide)

theorem mem_dropWhile_of_mem {c : Char} {p : Char → Bool} {l : List Char}
    (hc : c ∈ l) (hp : p c = false) : c ∈ l.dropWhile p := by
  induction l with
  | nil => simp at hc
  | cons a t ih =>
    rw [List.dropWhile_cons]
    rcases List.mem_cons.mp hc with rfl | ht
    · simp [hp]
    · split
      · exact ih ht
      · exact List.mem_cons_of_mem _ ht

theorem mem_pyStrip {c : Char} {s : Str} (hc : c ∈ s)
    (hp : pyIsSpace c = false) : c ∈ pyStrip s := by
  have h1 : c ∈ pyLstrip s := mem_dropWhile_of_mem hc hp
  have h2 : c ∈ (pyLstrip s).reverse := List.mem_reverse.mpr h1
  have h3 : c ∈ (pyLstrip s).reverse.dropWhile pyIsSpace :=
    mem_dropWhile_of_mem h2 hp
  simpa [pyStrip, pyRstrip] using List.mem_reverse.mpr h3

theorem exists_line_of_mem {c : Char} {s : Str} (hc : c ∈ s)
    (hnl : c ≠ '\n') : ∃ line ∈ splitOnNl s, c ∈ line := by
  induction s with
  | nil => simp at hc
  | cons a cs ih =>
    rw [splitOnNl]
    by_cases ha : a = '\n'
    · subst ha
      simp only [if_pos rfl]
      rcases List.mem_cons.mp hc with rfl | hcs
      · exact absurd rfl hnl
      · obtain ⟨line, hl, hcl⟩ := ih hcs
        exact ⟨line, List.mem_cons_of_mem _ hl, hcl⟩
    · simp only [if_neg ha]
      rcases List.mem_cons.mp hc with rfl | hcs
      · rcases h : splitOnNl cs with _ | ⟨l, ls⟩
        · exact ⟨[c], by simp, by simp⟩
        · exact ⟨c :: l, by simp, by simp⟩
      · obtain ⟨line, hl, hcl⟩ := ih hcs
        rcases h : splitOnNl cs with _ | ⟨l, ls⟩
        · rw [h] at hl
          simp at hl
        · rw [h] at hl
          rcases List.mem_cons.mp hl with rfl | hls
          · exact ⟨a :: line, by simp, List.mem_cons_of_mem _ hcl⟩
          · exact ⟨line, by simp [hls], hcl⟩

theorem mem_joinNl {c : Char} {lines : List Str} {l : Str}
    (hl : l ∈ lines) (hc : c ∈ l) : c ∈ joinNl lines := by
  induction lines with
  | nil => simp at hl
  | cons a rest ih =>
    rcases rest with _ | ⟨b, rest2⟩
    · have : l = a := by simpa using hl
      subst this
      simpa [joinNl] using hc
    · simp only [joinNl]
      rcases List.mem_cons.mp hl with rfl | h2
      · exact List.mem_append_left _ hc
      · exact List.mem_append_right _ (List.mem_cons_of_mem _ (ih h2))

theorem parseLoop_ne_nil_of_acc {acc : List HNode} (lines : List Str)
    (hacc : acc ≠ []) : parseLoop acc lines ≠ [] := by
  induction lines generalizing acc with
  | nil => simpa [parseLoop] using hacc
  | cons line rest ih =>
    rw [parseLoop]
    split
    · exact ih (by simp)
    · exact ih hacc

theorem parseLoop_ne_nil :
    ∀ (lines : List Str) (acc : List HNode),
      (∃ line ∈ lines, pyStrip line ≠ []) → parseLoop acc lines ≠ [] := by
  intro lines
  induction lines with
  | nil =>
    intro acc h
    simp at h
  | cons line rest ih =>
    intro acc h
    rw [parseLoop]
    split
    · exact parseLoop_ne_nil_of_acc rest (by simp)
    · rename_i hcond
      obtain ⟨l, hl, hne⟩ := h
      rcases List.mem_cons.mp hl with rfl | h2
      · exact absurd (not_not.mp hcond) hne
      · exact ih acc ⟨l, h2, hne⟩

/-- C2. Fallback guarantee: `synthesize` is a total function (it cannot
raise — a throwing oracle is the explicit `.error` case), and when the
oracle throws the returned hierarchy is built from the deterministic
fallback text, whose parsed node list is non-empty whenever the list of
keyword inputs is non-empty. -/
theorem fallback_guarantee (key_word : Str) (keywords_data : List KeywordData)
    (e : Str) (hk : keywords_data ≠ []) :
    (synthesize (.error e) key_word keywords_data).hierarchy_text =
      create_fallback_hierarchy key_word keywords_data ∧
    (synthesize (.error e) key_word keywords_data).structured ≠ [] := by
  refine ⟨rfl, ?_⟩
  show parse_hierarchy (create_fallback_hierarchy key_word keywords_data) ≠ []
  obtain ⟨kw, rest, rfl⟩ : ∃ kw rest, keywords_data = kw :: rest := by
    cases keywords_data with
    | nil => exact absurd rfl hk
    | cons kw rest => exact ⟨kw, rest, rfl⟩
  have hmem : '-' ∈ create_fallback_hierarchy key_word (kw :: rest) := by
    unfold create_fallback_hierarchy
    refine mem_joinNl (l := ("  - ").toList ++ kw.keyword) ?_ ?_
    · simp [List.flatMap_cons]
    · exact List.mem_append_left _ (by decide)
  have hstrip : '-' ∈ pyStrip (create_fallback_hierarchy key_word (kw :: rest)) :=
    mem_pyStrip hmem (by decide)
  obtain ⟨line, hl, hcl⟩ := exists_line_of_mem hstrip (by decide)
  unfold parse_hierarchy
  refine parseLoop_ne_nil _ [] ⟨line, hl, fun hblank => ?_⟩
  have hml : '-' ∈ pyStrip line := mem_pyStrip hcl (by decide)
  rw [hblank] at hml
  simp at hml

/-- Witness for C2: one keyword and a throwing oracle yield the fallback
hierarchy with a non-empty parsed node list. -/
theorem fallback_guarantee_witness :
    (synthesize (.error ("boom").toList) ("K").toList
        [⟨("w1").toList, .list []⟩]).hierarchy_text =
      create_fallback_hierarchy ("K").toList [⟨("w1").toList, .list []⟩] ∧
    (synthesize (.error ("boom").toList) ("K").toList
        [⟨("w1").toList, .list []⟩]).structured ≠ [] :=
  fallback_guarantee ("K").toList [⟨("w1").toList, .list []⟩]
    ("boom").toList (by decide)

theorem calculate_overall_score_zero (l : List DimensionScore)
    (h : ∀ ds ∈ l, ds.score = 0) : calculate_overall_score l = 0 := by
  by_cases hl : l = []
  · simp [calculate_overall_score, hl]
  · have hsum : (l.map (·.score)).sum = 0 :=
      List.sum_eq_zero (by
        intro x hx
        obtain ⟨ds, hds, rfl⟩ := List.mem_map.mp hx
        exact h ds hds)
    simp only [calculate_overall_score, if_neg hl, hsum]
    norm_num [round1, roundHalfEven]

/-- Scenario B fixture: a hierarchy whose parse has exactly two scoreable
(level 1–2) nodes. -/
def hierarchyB : DimensionHierarchy :=
  ⟨("KW").toList, ("KW\n  - A\n  - B").toList, []⟩

/-- Scenario B fixture: an oracle that throws on every call. -/
def oracleB : Str → Except Str OracleResponse :=
  fun _ => .error ("down").toList

/-- C4. Per-node failure isolation: an oracle failure on the `i`-th
dimension still yields a `DimensionScore` for it, with score 0 and a
reasoning string describing the failure, while one score per dimension is
produced regardless; and in Scenario B (an oracle throwing on every node
of a hierarchy with exactly two scoreable nodes) the result has
`overall_score = 0`, both scores 0 and a non-empty weaknesses list. -/
theorem per_node_failure_isolation
    (oracle : Str → Except Str OracleResponse) (url : Str)
    (hierarchy : DimensionHierarchy) (key_word : Str) (i : Nat) (e : Str)
    (hi : i < (get_dimensions_to_analyze hierarchy).length)
    (herr : oracle ((get_dimensions_to_analyze hierarchy).get ⟨i, hi⟩).path =
      .error e) :
    (analyze oracle url hierarchy key_word).dimension_scores.length =
      (get_dimensions_to_analyze hierarchy).length ∧
    (analyze oracle url hierarchy key_word).dimension_scores[i]? =
      some ⟨((get_dimensions_to_analyze hierarchy).get ⟨i, hi⟩).path, 0,
        ("Analysis failed: ").toList ++ e, none⟩ ∧
    ((get_dimensions_to_analyze hierarchyB).length = 2 ∧
      (analyze oracleB ("http://t").toList hierarchyB
          ("KW").toList).dimension_scores.map (·.score) = [0, 0] ∧
      (analyze oracleB ("http://t").toList hierarchyB
          ("KW").toList).overall_score = 0 ∧
      (analyze oracleB ("http://t").toList hierarchyB
          ("KW").toList).weaknesses ≠ []) := by
  have hds : (analyze oracle url hierarchy key_word).dimension_scores =
      (get_dimensions_to_analyze hierarchy).map
        (fun d => analyze_dimension_coverage (oracle d.path) d.path) := rfl
  simp only [List.get_eq_getElem] at herr
  refine ⟨by rw [hds, List.length_map], ?_, by decide, by decide, ?_, by decide⟩
  · rw [hds, List.getElem?_map, List.getElem?_eq_getElem hi]
    simp [analyze_dimension_coverage, herr]
  · show calculate_overall_score
      (analyze oracleB ("http://t").toList hierarchyB
        ("KW").toList).dimension_scores = 0
    exact calculate_overall_score_zero _ (by decide)

/-- Witness for C4: in Scenario B the first dimension's failing oracle
call yields a zero score with the failure reasoning. -/
theorem per_node_failure_isolation_witness :
    (analyze oracleB ("http://t").toList hierarchyB
        ("KW").toList).dimension_scores[0]? =
      some ⟨((get_dimensions_to_analyze hierarchyB).get ⟨0, by decide⟩).path,
        0, ("Analysis failed: ").toList ++ ("down").toList, none⟩ :=
  (per_node_failure_isolation oracleB ("http://t").toList hierarchyB
    ("KW").toList 0 ("down").toList (by decide) rfl).2.1

theorem rdropWhile_cons (p : Char → Bool) (a : Char) (t : List Char) :
    List.rdropWhile p (a :: t) =
      if (List.rdropWhile p t).isEmpty then (if p a then [] else [a])
      else a :: List.rdropWhile p t := by
  show ((a :: t).reverse.dropWhile p).reverse = _
  rw [List.reverse_cons, List.dropWhile_append]
  have h : (t.reverse.dropWhile p).isEmpty = (List.rdropWhile p t).isEmpty := by
    rw [List.rdropWhile]
    cases hx : t.reverse.dropWhile p <;> simp
  by_cases ht : (List.rdropWhile p t).isEmpty
  · rw [h, if_pos ht]
    by_cases hp : p a
    · simp [hp, ht]
    · simp [hp, ht]
  · rw [h, if_neg ht, if_neg ht]
    simp [List.rdropWhile]

theorem dropWhile_rdropWhile_comm (p : Char → Bool) (l : List Char) :
    (List.rdropWhile p l).dropWhile p = List.rdropWhile p (l.dropWhile p) := by
  induction l with
  | nil => simp [List.rdropWhile_nil]
  | cons a t ih =>
    by_cases hpa : p a
    · rw [List.dropWhile_cons, if_pos hpa, rdropWhile_cons]
      by_cases ht : (List.rdropWhile p t).isEmpty
      · rw [if_pos ht, if_pos hpa]
        have h1 : List.rdropWhile p t = [] := List.isEmpty_iff.mp ht
        have h2 : List.rdropWhile p (t.dropWhile p) = [] := by
          rw [List.rdropWhile_eq_nil_iff]
          intro x hx
          exact (List.rdropWhile_eq_nil_iff.mp h1) x
            ((List.dropWhile_sublist _).mem hx)
        simp [h2]
      · rw [if_neg ht, List.dropWhile_cons, if_pos hpa, ih]
    · rw [List.dropWhile_cons, if_neg hpa, rdropWhile_cons]
      by_cases ht : (List.rdropWhile p t).isEmpty
      · rw [if_pos ht, if_neg hpa]
        simp [hpa]
      · rw [if_neg ht]
        simp [hpa, List.dropWhile_cons]

theorem pyStrip_pyRstrip (s : Str) : pyStrip (pyRstrip s) = pyStrip s := by
  show List.rdropWhile pyIsSpace
      ((List.rdropWhile pyIsSpace s).dropWhile pyIsSpace) =
    List.rdropWhile pyIsSpace (s.dropWhile pyIsSpace)
  rw [dropWhile_rdropWhile_comm, List.rdropWhile_idempotent]

theorem startswith_iff (p s : Str) : startswith p s = true ↔ p <+: s := by
  induction p generalizing s with
  | nil => simp [startswith]
  | cons a ps ih =>
    cases s with
    | nil => simp [startswith]
    | cons c cs => simp [startswith, ih, List.cons_prefix_cons]

theorem containsSub_iff (n h : Str) : containsSub n h = true ↔ n <:+: h := by
  induction h with
  | nil => simp [containsSub, startswith_iff]
  | cons c cs ih => simp [containsSub, startswith_iff, ih, List.infix_cons_iff]

theorem pyStrip_isInfix (s : Str) : pyStrip s <:+: s := by
  have h1 : pyStrip s <+: pyLstrip s := List.rdropWhile_prefix _ _
  have h2 : pyLstrip s <:+ s := List.dropWhile_suffix _
  exact h1.isInfix.trans h2.isInfix

theorem contains_of_startswith_strip {kw line : Str}
    (h : startswith kw (pyStrip line) = true) :
    containsSub (pyLower kw) (pyLower line) = true := by
  rw [containsSub_iff]
  have h1 : kw <+: pyStrip line := (startswith_iff _ _).mp h
  have h2 : kw <:+: line := h1.isInfix.trans (pyStrip_isInfix line)
  exact h2.map Char.toLower

/-- Capture-start predicate in the words of the amended claim C7: a line
whose stripped text equals the keyword or — when not yet capturing —
whose stripped text starts with the keyword. (The source's additional
case-insensitive containment conjunct is implied by the latter.) -/
def beginsCaptureSpec (key_word line : Str) (capturing : Bool) : Bool :=
  pyStrip line == key_word || (!capturing && startswith key_word (pyStrip line))

/-- A blank line, in the words of the amended claim C7. -/
def blankSpec (line : Str) : Bool := (pyStrip line).isEmpty

/-- An indented or bullet line (starts with a space or `'-'`), in the
words of the amended claim C7. -/
def indentedSpec (line : Str) : Bool :=
  startswith [' '] line || startswith ['-'] line

/-- Retention predicate in the words of the amended claim C7: the line's
stripped text starts with `'-'`. -/
def retainedSpec (line : Str) : Bool := startswith ['-'] (pyStrip line)

/-- The extraction scan as the amended claim C7 describes it: a
capture-start line contributes the bare keyword; once capturing, blank
lines are skipped, indented/bullet lines are kept (rstripped) exactly
when their stripped text starts with `'-'` and dropped otherwise, and any
other line ends the scan. -/
def extractScanSpec (key_word : Str) : List Str → Bool → List Str
  | [], _ => []
  | line :: rest, capturing =>
    if beginsCaptureSpec key_word line capturing then
      key_word :: extractScanSpec key_word rest true
    else if capturing then
      if blankSpec line then extractScanSpec key_word rest true
      else if indentedSpec line then
        (if retainedSpec line then [pyRstrip line] else []) ++
          extractScanSpec key_word rest true
      else []
    else extractScanSpec key_word rest false

/-- Spec-level description of the extraction heuristic (amended claim
C7). -/
def extract_spec (response : Option Str) (key_word : Str) : Str :=
  match response with
  | none => []
  | some r =>
    if r = [] then []
    else joinNl (extractScanSpec key_word (splitOnNl (pyStrip r)) false)

theorem extractLoop_eq_spec (key_word : Str) :
    ∀ (lines : List Str) (c : Bool),
      extractLoop key_word lines c = extractScanSpec key_word lines c := by
  intro lines
  induction lines with
  | nil => intro c; rfl
  | cons line rest ih =>
    intro c
    rw [extractLoop, extractScanSpec]
    have hcond : (pyStrip line == key_word ||
        (!c && containsSub (pyLower key_word) (pyLower line) &&
          startswith key_word (pyStrip line))) =
        beginsCaptureSpec key_word line c := by
      unfold beginsCaptureSpec
      by_cases hs : startswith key_word (pyStrip line) = true
      · simp [hs, contains_of_startswith_strip hs]
      · have hs2 : startswith key_word (pyStrip line) = false := by
          simpa using hs
        simp [hs2]
    rw [hcond]
    by_cases h1 : beginsCaptureSpec key_word line c = true
    · simp [h1, ih]
    · by_cases hc : c = true
      · by_cases hb : (pyStrip line).isEmpty = true
        · simp [h1, hc, hb, blankSpec, ih]
        · by_cases hi :
              (startswith [' '] line || startswith ['-'] line) = true
          · simp [h1, hc, hb, hi, blankSpec, indentedSpec, retainedSpec,
              pyStrip_pyRstrip, ih]
          · simp [h1, hc, hb, hi, blankSpec, indentedSpec, ih]
      · simp [h1, hc, ih]

/-- Counterexample to C7 as stated: inside capture, the line `"  A1"`
starts with whitespace yet is not retained (its stripped text does not
start with `'-'`), so the extraction drops it instead of keeping it
verbatim. -/
theorem extraction_heuristic_cex :
    extract_hierarchy_from_response (some ("KW\n  A1\n  - B").toList)
        ("KW").toList = ("KW\n  - B").toList ∧
    extract_hierarchy_from_response (some ("KW\n  A1\n  - B").toList)
        ("KW").toList ≠ ("KW\n  A1\n  - B").toList := by decide

/-- C7 (amended). Hierarchy extraction heuristic: capture begins at a
line whose stripped text equals the keyword, or — before capture — whose
stripped text starts with the keyword; the capture-start line is replaced
by the bare keyword; once capturing, blank lines are skipped, a line
starting with a space or `'-'` is retained (trimmed of trailing
whitespace) exactly when its stripped text starts with `'-'` and is
dropped silently otherwise, and any other non-empty line stops the
capture; if capture never begins the result is empty. -/
theorem extraction_heuristic_amended (response : Option Str)
    (key_word : Str) :
    extract_hierarchy_from_response response key_word =
      extract_spec response key_word := by
  cases response with
  | none => rfl
  | some r =>
    rw [extract_hierarchy_from_response, extract_spec]
    by_cases hr : r = []
    · simp [hr]
    · simp [hr, extractLoop_eq_spec]

theorem parseLoop_map_name (lines : List Str) (acc : List HNode) :
    (parseLoop acc lines).map (fun n => n.name) =
      acc.map (fun n => n.name) ++
        (lines.filter (fun l => !(pyStrip l).isEmpty)).map
          (fun l => dropMarkers (pyStrip l)) := by
  induction lines generalizing acc with
  | nil => simp [parseLoop]
  | cons line rest ih =>
    rw [parseLoop]
    split
    · rename_i hcond
      rw [ih]
      simp [List.filter_cons, List.isEmpty_iff, hcond, mkNode]
    · rename_i hcond
      have hc : pyStrip line = [] := not_not.mp hcond
      rw [ih]
      simp [List.filter_cons, hc]

/-- Counterexample to C8 as stated: the single line `"-"` is non-blank,
so it produces a node, yet its name is empty after stripping the bullet
markers — an empty-named node is emitted rather than dropped. -/
theorem empty_name_dropping_cex :
    parse_hierarchy ("-").toList = [⟨[], 0, []⟩] ∧
    ¬ (∀ n ∈ parse_hierarchy ("-").toList, n.name ≠ []) := by decide

/-- C8 (amended). Empty-name dropping: only lines that are blank after
whitespace stripping are dropped; every non-blank line produces exactly
one node, whose name is the stripped line with leading `'-'`/`' '`
characters removed and may therefore be empty when the line consists
solely of such characters. -/
theorem empty_name_dropping_amended (text : Str) :
    (parse_hierarchy text).map (fun n => n.name) =
      ((splitOnNl (pyStrip text)).filter
          (fun l => !(pyStrip l).isEmpty)).map
        (fun l => dropMarkers (pyStrip l)) := by
  unfold parse_hierarchy
  simpa using parseLoop_map_name (splitOnNl (pyStrip text)) []

theorem splitOnNl_no_nl_mem (s : Str) : ∀ line ∈ splitOnNl s, '\n' ∉ line := by
  induction s with
  | nil =>
    intro line hl
    simp [splitOnNl] at hl
    simp [hl]
  | cons c cs ih =>
    intro line hl
    rw [splitOnNl] at hl
    by_cases hc : c = '\n'
    · rw [if_pos hc] at hl
      rcases List.mem_cons.mp hl with rfl | h2
      · simp
      · exact ih line h2
    · rw [if_neg hc] at hl
      rcases hsp : splitOnNl cs with _ | ⟨l, ls⟩
      · rw [hsp] at hl
        simp at hl
        subst hl
        intro hmem
        simp at hmem
        exact hc hmem.symm
      · rw [hsp] at hl
        rcases List.mem_cons.mp hl with rfl | h2
        · intro hmem
          rcases List.mem_cons.mp hmem with heq | h3
          · exact hc heq.symm
          · exact ih l (by rw [hsp]; exact List.mem_cons_self l ls) h3
        · exact ih line (by rw [hsp]; exact List.mem_cons_of_mem _ h2)

theorem splitOnNl_eq_single {a : Str} (h : '\n' ∉ a) : splitOnNl a = [a] := by
  induction a with
  | nil => rfl
  | cons c cs ih =>
    have hc : ¬ c = '\n' := fun hh => h (hh ▸ List.mem_cons_self c cs)
    have hcs : '\n' ∉ cs := fun hh => h (List.mem_cons_of_mem _ hh)
    rw [splitOnNl, if_neg hc, ih hcs]

theorem splitOnNl_append_nl {a : Str} (b : Str) (h : '\n' ∉ a) :
    splitOnNl (a ++ '\n' :: b) = a :: splitOnNl b := by
  induction a with
  | nil => simp [splitOnNl]
  | cons c cs ih =>
    have hc : ¬ c = '\n' := fun hh => h (hh ▸ List.mem_cons_self c cs)
    have hcs : '\n' ∉ cs := fun hh => h (List.mem_cons_of_mem _ hh)
    rw [List.cons_append, splitOnNl, if_neg hc, ih hcs]

theorem rdropWhile_append (p : Char → Bool) (l1 l2 : List Char) :
    List.rdropWhile p (l1 ++ l2) =
      if (List.rdropWhile p l2).isEmpty then List.rdropWhile p l1
      else l1 ++ List.rdropWhile p l2 := by
  show ((l1 ++ l2).reverse.dropWhile p).reverse = _
  rw [List.reverse_append, List.dropWhile_append]
  have h : (l2.reverse.dropWhile p).isEmpty = (List.rdropWhile p l2).isEmpty := by
    rw [List.rdropWhile]
    cases hx : l2.reverse.dropWhile p <;> simp
  by_cases h2 : (List.rdropWhile p l2).isEmpty
  · rw [h, if_pos h2, if_pos h2]
    rfl
  · rw [h, if_neg h2, if_neg h2, List.reverse_append, List.reverse_reverse]
    rfl

theorem parseLoop_head (lines : List Str) :
    ∀ acc : List HNode, acc ≠ [] → (parseLoop acc lines).head? = acc.head? := by
  induction lines with
  | nil =>
    intro acc h
    simp [parseLoop]
  | cons line rest ih =>
    intro acc h
    rw [parseLoop]
    split
    · rw [ih _ (by simp)]
      cases acc with
      | nil => exact absurd rfl h
      | cons a t => simp
    · exact ih _ h

theorem extractLoop_shape (kw : Str) (lines : List Str) :
    extractLoop kw lines false = [] ∨
      ∃ rest, extractLoop kw lines false = kw :: rest := by
  induction lines with
  | nil => exact .inl rfl
  | cons line rest ih =>
    rw [extractLoop]
    split
    · exact .inr ⟨_, rfl⟩
    · rw [if_neg (by simp : ¬ ((false : Bool) = true))]
      exact ih

theorem capture_of_ne_nil (kw : Str) (lines : List Str)
    (h : extractLoop kw lines false ≠ []) :
    ∃ line ∈ lines, pyStrip line = kw ∨ kw <+: pyStrip line := by
  induction lines with
  | nil => exact absurd rfl h
  | cons line rest ih =>
    rw [extractLoop] at h
    by_cases hcond : (pyStrip line == kw ||
        (!(false : Bool) && containsSub (pyLower kw) (pyLower line) &&
          startswith kw (pyStrip line))) = true
    · refine ⟨line, List.mem_cons_self _ _, ?_⟩
      simp only [Bool.not_false, Bool.true_and, Bool.or_eq_true,
        Bool.and_eq_true, beq_iff_eq] at hcond
      rcases hcond with h1 | ⟨h2, h3⟩
      · exact .inl h1
      · exact .inr ((startswith_iff _ _).mp h3)
    · rw [if_neg hcond, if_neg (by simp : ¬ ((false : Bool) = true))] at h
      obtain ⟨l, hl, hp⟩ := ih h
      exact ⟨l, List.mem_cons_of_mem _ hl, hp⟩

theorem strip_eq_self {kw : Str} (h : pyStrip kw = kw) :
    pyLstrip kw = kw ∧ pyRstrip kw = kw := by
  have hpre : pyStrip kw <+: pyLstrip kw := List.rdropWhile_prefix _ _
  have hlen1 : kw.length ≤ (pyLstrip kw).length := by
    have hx := hpre.length_le
    rw [h] at hx
    exact hx
  have hlen2 : (pyLstrip kw).length ≤ kw.length :=
    (List.dropWhile_sublist _).length_le
  have h1 : pyLstrip kw = kw := by
    apply (List.dropWhile_sublist _).eq_of_length
    simp only [pyLstrip] at hlen1 hlen2
    omega
  refine ⟨h1, ?_⟩
  calc pyRstrip kw = pyRstrip (pyLstrip kw) := by rw [h1]
  _ = kw := h

theorem exists_head_not_space {kw : Str} (h1 : pyLstrip kw = kw)
    (hne : kw ≠ []) : ∃ a t, kw = a :: t ∧ pyIsSpace a = false := by
  cases kw with
  | nil => exact absurd rfl hne
  | cons a t =>
    refine ⟨a, t, rfl, ?_⟩
    by_contra hp
    have hpa : pyIsSpace a = true := by simpa using hp
    have hdw : pyLstrip (a :: t) = pyLstrip t := by
      show (a :: t).dropWhile pyIsSpace = t.dropWhile pyIsSpace
      rw [List.dropWhile_cons, if_pos hpa]
    rw [hdw] at h1
    have hle : (pyLstrip t).length ≤ t.length :=
      (List.dropWhile_sublist _).length_le
    rw [h1] at hle
    simp at hle

theorem cons_eq_of_prefix_ne_nil {l : Str} {a : Char} {t : Str}
    (hp : l <+: a :: t) (hne : l ≠ []) : ∃ l2, l = a :: l2 := by
  obtain ⟨u, hu⟩ := hp
  cases l with
  | nil => exact absurd rfl hne
  | cons b l2 =>
    rw [List.cons_append] at hu
    injection hu with h1 h2
    exact ⟨l2, by rw [h1]⟩

theorem extract_shape (response : Option Str) (kw : Str)
    (h : extract_hierarchy_from_response response kw ≠ []) :
    ∃ rest, extract_hierarchy_from_response response kw =
      joinNl (kw :: rest) ∧ '\n' ∉ kw := by
  cases response with
  | none => exact absurd rfl h
  | some r =>
    by_cases hr : r = []
    · exact absurd (by rw [extract_hierarchy_from_response, if_pos hr]) h
    · have hE : extract_hierarchy_from_response (some r) kw =
          joinNl (extractLoop kw (splitOnNl (pyStrip r)) false) := by
        rw [extract_hierarchy_from_response, if_neg hr]
      rcases extractLoop_shape kw (splitOnNl (pyStrip r)) with hnil | ⟨rest, hrest⟩
      · rw [hE, hnil] at h
        exact absurd rfl h
      · have hloopne : extractLoop kw (splitOnNl (pyStrip r)) false ≠ [] := by
          rw [hrest]
          simp
        obtain ⟨line, hl, hp⟩ := capture_of_ne_nil kw _ hloopne
        have hnln : '\n' ∉ line := splitOnNl_no_nl_mem _ line hl
        have hnl : '\n' ∉ kw := by
          rcases hp with heq | hpre
          · intro hz
            have hz2 : '\n' ∈ pyStrip line := by rw [heq]; exact hz
            exact hnln ((pyStrip_isInfix line).subset hz2)
          · intro hz
            exact hnln ((pyStrip_isInfix line).subset (hpre.subset hz))
        exact ⟨rest, by rw [hE, hrest], hnl⟩

/-- Counterexample to C10 as stated: with keyword `"-X"` the extraction
is non-empty and its first line is the keyword, but parsing strips the
leading dash, so the root node is named `"X"`, not the keyword. -/
theorem clean_root_cex :
    extract_hierarchy_from_response (some ("-X\n  - B").toList)
        ("-X").toList = ("-X\n  - B").toList ∧
    (parse_hierarchy (extract_hierarchy_from_response
        (some ("-X\n  - B").toList) ("-X").toList)).head? =
      some ⟨("X").toList, 0, ("X").toList⟩ ∧
    ("X").toList ≠ ("-X").toList := by decide

/-- C10 (amended). Clean-root substitution: a `None` or empty response
yields the empty string; whenever the result is non-empty, the keyword
contains no newline and the first line of the result is exactly the
keyword (the matched root line was replaced by the bare keyword); and the
root node of the subsequently parsed hierarchy is named exactly the
keyword provided the keyword is already bare — non-empty, free of
surrounding whitespace and not starting with `'-'` or `' '`. -/
theorem clean_root_amended (response : Option Str) (key_word : Str) :
    ((response = none ∨ response = some []) →
      extract_hierarchy_from_response response key_word = []) ∧
    (extract_hierarchy_from_response response key_word ≠ [] →
      '\n' ∉ key_word ∧
      (splitOnNl (extract_hierarchy_from_response response key_word)).headD
          [] = key_word) ∧
    (pyStrip key_word = key_word → dropMarkers key_word = key_word →
      key_word ≠ [] →
      extract_hierarchy_from_response response key_word ≠ [] →
      (parse_hierarchy
          (extract_hierarchy_from_response response key_word)).head? =
        some ⟨key_word, 0, key_word⟩) := by
  refine ⟨?_, ?_, ?_⟩
  · rintro (rfl | rfl)
    · rfl
    · rw [extract_hierarchy_from_response, if_pos rfl]
  · intro h
    obtain ⟨rest, hE, hnl⟩ := extract_shape response key_word h
    refine ⟨hnl, ?_⟩
    rw [hE]
    cases rest with
    | nil =>
      show (splitOnNl (joinNl [key_word])).headD [] = key_word
      simp only [joinNl]
      rw [splitOnNl_eq_single hnl]
      rfl
    | cons r1 r2 =>
      show (splitOnNl (joinNl (key_word :: r1 :: r2))).headD [] = key_word
      simp only [joinNl]
      rw [splitOnNl_append_nl _ hnl]
      rfl
  · intro hs hd hne h
    obtain ⟨rest, hE, hnl⟩ := extract_shape response key_word h
    obtain ⟨hls, hrs⟩ := strip_eq_self hs
    have hkwempty : key_word.isEmpty = false := by
      cases key_word with
      | nil => exact absurd rfl hne
      | cons a t => rfl
    have hmain : ∃ L, splitOnNl (pyStrip (joinNl (key_word :: rest))) =
        key_word :: L := by
      cases rest with
      | nil =>
        refine ⟨[], ?_⟩
        show splitOnNl (pyStrip key_word) = [key_word]
        rw [hs, splitOnNl_eq_single hnl]
      | cons r1 r2 =>
        simp only [joinNl]
        have hlstrip : pyLstrip (key_word ++ '\n' :: joinNl (r1 :: r2)) =
            key_word ++ '\n' :: joinNl (r1 :: r2) := by
          show (key_word ++ '\n' :: joinNl (r1 :: r2)).dropWhile pyIsSpace = _
          rw [List.dropWhile_append]
          have hkwd : key_word.dropWhile pyIsSpace = key_word := hls
          rw [hkwd, if_neg (by simp [hkwempty])]
        have hstrip : pyStrip (key_word ++ '\n' :: joinNl (r1 :: r2)) =
            pyRstrip (key_word ++ '\n' :: joinNl (r1 :: r2)) := by
          show pyRstrip (pyLstrip _) = _
          rw [hlstrip]
        rw [hstrip]
        have hr2 : pyRstrip (key_word ++ '\n' :: joinNl (r1 :: r2)) =
            if (List.rdropWhile pyIsSpace ('\n' :: joinNl (r1 :: r2))).isEmpty
            then List.rdropWhile pyIsSpace key_word
            else key_word ++
              List.rdropWhile pyIsSpace ('\n' :: joinNl (r1 :: r2)) :=
          rdropWhile_append pyIsSpace key_word ('\n' :: joinNl (r1 :: r2))
        rw [hr2]
        by_cases hcase :
            (List.rdropWhile pyIsSpace ('\n' :: joinNl (r1 :: r2))).isEmpty
        · rw [if_pos hcase]
          have hk : List.rdropWhile pyIsSpace key_word = key_word := hrs
          rw [hk, splitOnNl_eq_single hnl]
          exact ⟨[], rfl⟩
        · rw [if_neg hcase]
          have hne2 :
              List.rdropWhile pyIsSpace ('\n' :: joinNl (r1 :: r2)) ≠ [] := by
            simpa [List.isEmpty_iff] using hcase
          have hpfx := List.rdropWhile_prefix pyIsSpace ('\n' :: joinNl (r1 :: r2))
          obtain ⟨t2, ht2⟩ := cons_eq_of_prefix_ne_nil hpfx hne2
          rw [ht2, splitOnNl_append_nl _ hnl]
          exact ⟨_, rfl⟩
    obtain ⟨L, hL⟩ := hmain
    rw [hE]
    unfold parse_hierarchy
    rw [hL, parseLoop,
      if_pos (show pyStrip key_word ≠ [] by rw [hs]; exact hne),
      parseLoop_head L _ (by simp)]
    have hmk : mkNode [] key_word = ⟨key_word, 0, key_word⟩ := by
      simp [mkNode, hs, hd, hls, build_path]
    rw [List.nil_append, hmk]
    rfl

/-- Witness for C10 (amended): a response with leading chatter and a
decorated root line yields an extraction whose first line, and whose
parsed root node name, are the bare keyword. -/
theorem clean_root_amended_witness :
    extract_hierarchy_from_response
        (some ("Intro\nKW extras\n  - A\nEnd").toList) ("KW").toList ≠ [] ∧
    (splitOnNl (extract_hierarchy_from_response
        (some ("Intro\nKW extras\n  - A\nEnd").toList)
        ("KW").toList)).headD [] = ("KW").toList ∧
    (parse_hierarchy (extract_hierarchy_from_response
        (some ("Intro\nKW extras\n  - A\nEnd").toList)
        ("KW").toList)).head? =
      some ⟨("KW").toList, 0, ("KW").toList⟩ :=
  ⟨by decide,
   ((clean_root_amended (some ("Intro\nKW extras\n  - A\nEnd").toList)
      ("KW").toList).2.1 (by decide)).2,
   (clean_root_amended (some ("Intro\nKW extras\n  - A\nEnd").toList)
      ("KW").toList).2.2 (by decide) (by decide) (by decide) (by decide)⟩
